import Mathlib

/-!
Verification of the SHA-Infinity hashing core (`src/lib/hashing/sha-infinity.js`)
of BlackRoad-OS/blackroad-hello.

Shallow embedding conventions:
* JS strings are modelled as Lean `String` (a sequence of Unicode code points,
  exactly as in JS).  Byte buffers are modelled as `List Nat` (one entry per
  byte).
* The SHA-256 primitive is external (Node's `crypto`); the source composes it
  as `crypto.createHash('sha256').update(x).digest('hex')`, where `update`
  UTF-8 encodes string inputs and takes buffer bytes as they are.  We therefore
  parameterise every definition by the digest: at string level
  `h : String → String` stands for "UTF-8 encode, then SHA-256, hex output";
  at byte level `hB : List Nat → String` stands for "SHA-256 of raw bytes,
  hex output".
* JS numbers appearing as indices/depths are modelled as `Int` (the code only
  ever computes with integral values there); the special `Infinity` depth
  accepted by `shaInfinity` is one extra constructor of `JsDepth`.
* JS field access `arr[i]` yielding `undefined` out of range is modelled with
  `Option`; the JS string coercion `undefined + s = "undefined" + s` is
  modelled explicitly where the source can perform it.
-/

namespace ShaInfinity

/-! ### Configuration (`SHA_INFINITY_CONFIG`, lines 17–24) -/

structure Config where
  baseAlgorithm : String
  defaultDepth : Int
  maxDepth : Int
  encoding : String
  separator : String
  version : String

def SHA_INFINITY_CONFIG : Config :=
  { baseAlgorithm := "sha256"
    defaultDepth := 1
    maxDepth := 1000000
    encoding := "hex"
    separator := ":"
    version := "1.0.0" }

/-! ### Depth handling (`shaInfinity`, lines 52–69) -/

/-- A JS number used as a depth: either an integral value or `Infinity`. -/
inductive JsDepth where
  | fin (d : Int)
  | inf
deriving DecidableEq

/-- Lines 53–60: `Infinity` becomes `maxDepth`; then `depth < 1` becomes 1 and
`depth > maxDepth` becomes `maxDepth`. -/
def normDepth : JsDepth → Nat
  | .inf => 1000000
  | .fin d => if d < 1 then 1 else if d > 1000000 then 1000000 else d.toNat

/-- The loop of lines 64–66: apply `h` to the running string `n` times. -/
def iterApply (h : String → String) : Nat → String → String
  | 0, s => s
  | n + 1, s => iterApply h n (h s)

/-- `shaInfinity(input, depth)` (lines 52–69) on a string input: normalise the
depth, then iterate the digest. -/
def shaInfinity (h : String → String) (input : String) (depth : JsDepth) : String :=
  iterApply h (normDepth depth) input

/-! ### Byte-level inputs (`string | Buffer`, line 62)

`shaInfinity` accepts `string | Buffer` and coerces with
`typeof input === 'string' ? input : input.toString()`; Node's
`Buffer.prototype.toString()` performs lossy UTF-8 decoding (WHATWG decoder,
invalid sequences become U+FFFD), while `crypto`'s `update` hashes a buffer's
raw bytes and UTF-8 encodes a string argument. -/

/-- UTF-8 encoding of one code point. -/
def utf8EncodeChar (c : Char) : List Nat :=
  let cp := c.toNat
  if cp < 0x80 then [cp]
  else if cp < 0x800 then [0xC0 ||| (cp >>> 6), 0x80 ||| (cp &&& 0x3F)]
  else if cp < 0x10000 then
    [0xE0 ||| (cp >>> 12), 0x80 ||| ((cp >>> 6) &&& 0x3F), 0x80 ||| (cp &&& 0x3F)]
  else
    [0xF0 ||| (cp >>> 18), 0x80 ||| ((cp >>> 12) &&& 0x3F),
      0x80 ||| ((cp >>> 6) &&& 0x3F), 0x80 ||| (cp &&& 0x3F)]

/-- UTF-8 encoding of a string, as `hash.update(string)` performs with its
default 'utf8' input encoding. -/
def utf8Encode (s : String) : List Nat := (s.data.map utf8EncodeChar).flatten

/-- The replacement character U+FFFD emitted by lossy UTF-8 decoding. -/
def repChar : Char := Char.ofNat 0xFFFD

/-- Decoder state inside a multi-byte sequence (the WHATWG UTF-8 decoder that
`buffer.toString('utf8')` implements): accumulated code point bits, number of
continuation bytes still needed, and the valid range for the next byte. -/
structure Utf8State where
  cp : Nat
  needed : Nat
  lower : Nat
  upper : Nat

/-- WHATWG UTF-8 decoder: handling of one byte in the initial state. -/
def utf8DecStart (b : Nat) : List Char × Option Utf8State :=
  if b ≤ 0x7F then ([Char.ofNat b], none)
  else if 0xC2 ≤ b ∧ b ≤ 0xDF then ([], some ⟨b &&& 0x1F, 1, 0x80, 0xBF⟩)
  else if 0xE0 ≤ b ∧ b ≤ 0xEF then
    ([], some ⟨b &&& 0xF, 2, if b = 0xE0 then 0xA0 else 0x80,
      if b = 0xED then 0x9F else 0xBF⟩)
  else if 0xF0 ≤ b ∧ b ≤ 0xF4 then
    ([], some ⟨b &&& 0x7, 3, if b = 0xF0 then 0x90 else 0x80,
      if b = 0xF4 then 0x8F else 0xBF⟩)
  else ([repChar], none)

/-- WHATWG UTF-8 decoder main loop: an out-of-range continuation byte emits
U+FFFD and is reprocessed in the initial state; a truncated final sequence
emits U+FFFD. -/
def utf8DecGo : List Nat → Option Utf8State → List Char
  | [], none => []
  | [], some _ => [repChar]
  | b :: rest, none =>
    let r := utf8DecStart b
    r.1 ++ utf8DecGo rest r.2
  | b :: rest, some st =>
    if st.lower ≤ b ∧ b ≤ st.upper then
      let cp := (st.cp <<< 6) ||| (b &&& 0x3F)
      if st.needed = 1 then Char.ofNat cp :: utf8DecGo rest none
      else utf8DecGo rest (some ⟨cp, st.needed - 1, 0x80, 0xBF⟩)
    else
      let r := utf8DecStart b
      repChar :: (r.1 ++ utf8DecGo rest r.2)

/-- `Buffer.prototype.toString()` with the default 'utf8' encoding: lossy
UTF-8 decoding with U+FFFD replacement. -/
def jsBufToString (b : List Nat) : String := ⟨utf8DecGo b none⟩

/-- A JS `string | Buffer` value, as accepted by `shaInfinity` and `sha256`. -/
inductive JsValue where
  | str (s : String)
  | buf (b : List Nat)

/-- Line 62: `typeof input === 'string' ? input : input.toString()`. -/
def jsValueToString : JsValue → String
  | .str s => s
  | .buf b => jsBufToString b

/-- `sha256(input)` (lines 31–33) over the raw-byte digest primitive `hB`:
`crypto.update` UTF-8 encodes a string argument and takes a buffer's bytes
directly. -/
def sha256Js (hB : List Nat → String) : JsValue → String
  | .str s => hB (utf8Encode s)
  | .buf b => hB b

/-- `shaInfinity(input, depth)` (lines 52–69) on a `string | Buffer` input:
line 62 coerces the input to a string, and every loop iteration hashes the
running (hex) *string*. -/
def shaInfinityJs (hB : List Nat → String) (input : JsValue) (depth : JsDepth) :
    String :=
  shaInfinity (fun s => hB (utf8Encode s)) (jsValueToString input) depth

/-- A concrete stand-in for the raw-byte digest, injective on byte lists. -/
def byteHash : List Nat → String := fun bs => String.mk (bs.map Char.ofNat)

/-! ### Merkle proof steps and verification (`verifyMerkleProof`, lines 171–183) -/

/-- One entry of a proof array: `{hash, position}` (lines 147–150).  `hash` is
`Option String` because the source can push `levelHashes[siblingIdx]` with a
negative `siblingIdx`, which is `undefined` in JS. -/
structure MerkleProofStep where
  hash : Option String
  position : String
deriving DecidableEq

/-- JS string coercion of a possibly-`undefined` value, as performed by the
`+` operator in `sha256(step.hash + hash)`. -/
def jsCoerce : Option String → String
  | some s => s
  | none => "undefined"

/-- `verifyMerkleProof(leaf, proof, root)` (lines 171–183): fold the proof
steps over the running hash (prepend the sibling when `position === 'left'`,
append otherwise), then compare with `root`. -/
def verifyMerkleProof (h : String → String) (leaf : String)
    (proof : List MerkleProofStep) (root : String) : Bool :=
  (proof.foldl
    (fun hash step =>
      if step.position = "left" then h (jsCoerce step.hash ++ hash)
      else h (hash ++ jsCoerce step.hash))
    leaf) == root

/-! ### Merkle tree construction (`merkleTree`, lines 100–127) -/

/-- One pass of the inner `for` loop (lines 112–116): pair adjacent hashes and
digest the concatenation.  The source computes `right = leaves[i + 1] || left`,
so a missing sibling *and* an empty-string sibling (JS falsiness) are both
replaced by `left`. -/
def pairUp (h : String → String) : List String → List String
  | [] => []
  | [a] => [h (a ++ a)]
  | a :: b :: rest => h (a ++ (if b = "" then a else b)) :: pairUp h rest

/-- Fuel-indexed form of the `while` loop of lines 110–119; `pairUp` at least
halves the length, so `lvl.length` units of fuel always suffice and the fuel
never runs out on the path actually taken. -/
def buildLevelsFuel (h : String → String) : Nat → List String → List (List String)
  | 0, lvl => [lvl]
  | fuel + 1, lvl =>
    if lvl.length ≤ 1 then [lvl]
    else lvl :: buildLevelsFuel h fuel (pairUp h lvl)

/-- The `while` loop of lines 110–119 together with the initial
`levels = [leaves]`: the successive levels, from the leaves up to (and
including) the first level of length ≤ 1. -/
def buildLevels (h : String → String) (lvl : List String) : List (List String) :=
  buildLevelsFuel h lvl.length lvl

/-- The result object of `merkleTree` (lines 102 and 121–126).  The source's
empty-items branch returns an object without an `itemCount` field; we record
`itemCount = 0` there (no claim depends on it). -/
structure MerkleTreeResult where
  root : String
  leaves : List String
  levels : List (List String)
  itemCount : Nat
deriving DecidableEq

/-- `merkleTree(items, depth)` (lines 100–127): hash every item with
`shaInfinity(item, depth)`, then build the levels bottom-up; the root is the
single entry of the last level.  An empty item list yields `sha256('')` with
empty leaves and levels. -/
def merkleTree (h : String → String) (items : List String) (depth : JsDepth) :
    MerkleTreeResult :=
  if items.isEmpty then ⟨h "", [], [], 0⟩
  else
    let ls := items.map fun item => shaInfinity h item depth
    let lvls := buildLevels h ls
    ⟨(lvls.getLastD []).headD "", ls, lvls, items.length⟩

/-! ### Merkle proof generation (`merkleProof`, lines 136–162) -/

/-- JS array indexing `a[i]` with a possibly negative or out-of-range index:
`undefined` outside `[0, a.length)`. -/
def jsIndex (l : List String) (i : Int) : Option String :=
  if i < 0 then none else l.get? i.toNat

/-- JS `idx % 2` (truncated remainder: `-1 % 2 === -1`). -/
def jsMod2 (i : Int) : Int :=
  if 0 ≤ i then ((i.toNat % 2 : Nat) : Int) else -((i.natAbs % 2 : Nat) : Int)

/-- JS `Math.floor(idx / 2)` (floor division). -/
def jsFloorHalf (i : Int) : Int :=
  if 0 ≤ i then ((i.toNat / 2 : Nat) : Int) else -(((i.natAbs + 1) / 2 : Nat) : Int)

/-- The loop of lines 141–154, walking over `tree.levels[0 .. length-2]`:
record the sibling hash and its side whenever `siblingIdx < levelHashes.length`
(note the source has no `0 ≤ siblingIdx` check), halving the index at each
level. -/
def proofSteps : List (List String) → Int → List MerkleProofStep
  | [], _ => []
  | lvl :: rest, idx =>
    let isRight := jsMod2 idx = 1
    let siblingIdx := if isRight then idx - 1 else idx + 1
    let tail := proofSteps rest (jsFloorHalf idx)
    if siblingIdx < (lvl.length : Int) then
      ⟨jsIndex lvl siblingIdx, if isRight then "left" else "right"⟩ :: tail
    else tail

/-- The result object of `merkleProof` (lines 156–161).  `leaf` is
`tree.leaves[index]`, which is `undefined` (here `none`) when `index` is out
of range — the source performs no bounds check whatsoever. -/
structure MerkleProofResult where
  root : String
  leaf : Option String
  proof : List MerkleProofStep
  index : Int
deriving DecidableEq

/-- `merkleProof(items, index, depth)` (lines 136–162). -/
def merkleProof (h : String → String) (items : List String) (index : Int)
    (depth : JsDepth) : MerkleProofResult :=
  let tree := merkleTree h items depth
  ⟨tree.root, jsIndex tree.leaves index, proofSteps tree.levels.dropLast index, index⟩

/-! ### Versioned hashes (`versionedHash` / `parseVersionedHash`, lines 220–242) -/

/-- The decimal digit character for `d % 10`. -/
def digitChar (d : Nat) : Char := Char.ofNat (48 + d % 10)

/-- Fuel-indexed decimal rendering of a natural number (most significant digit
first), as the JS template `${depth}` prints an integral number; `n` units of
fuel always suffice. -/
def natDigitsFuel : Nat → Nat → List Char → List Char
  | 0, n, acc => digitChar n :: acc
  | fuel + 1, n, acc =>
    if n < 10 then digitChar n :: acc
    else natDigitsFuel fuel (n / 10) (digitChar (n % 10) :: acc)

/-- Decimal digit list of a natural number. -/
def natDigits (n : Nat) : List Char := natDigitsFuel n n []

/-- JS number-to-string conversion for an integral value. -/
def jsNumToString (i : Int) : String :=
  if i < 0 then ⟨'-' :: natDigits i.natAbs⟩ else ⟨natDigits i.toNat⟩

/-- `versionedHash(input, depth)` (lines 220–223): the template
```sha-inf-v${version}-d${depth}-${hash}``` where `hash = shaInfinity(input, depth)`.
Note the printed depth is the *raw* argument while the hash uses the clamped
depth. -/
def versionedHash (h : String → String) (input : String) (depth : Int) : String :=
  "sha-inf-v" ++ SHA_INFINITY_CONFIG.version ++ "-d" ++ jsNumToString depth ++ "-" ++
    shaInfinity h input (.fin depth)

/-- Character class `[\d.]` of the parsing regex. -/
def isVerChar (c : Char) : Bool := c.isDigit || c == '.'

/-- Character class `[a-f0-9]` of the parsing regex. -/
def isLowerHexChar (c : Char) : Bool := c.isDigit || ('a' ≤ c && c ≤ 'f')

/-- Greedy span of a character class, as a regex `[...]+` munches. -/
def spanP (p : Char → Bool) : List Char → List Char × List Char
  | [] => ([], [])
  | c :: cs =>
    if p c then
      let r := spanP p cs
      (c :: r.1, r.2)
    else ([], c :: cs)

/-- Consume an exact literal prefix. -/
def dropLiteral : List Char → List Char → Option (List Char)
  | [], rest => some rest
  | _ :: _, [] => none
  | p :: ps, c :: cs => if c == p then dropLiteral ps cs else none

/-- Consume one exact character. -/
def expectChar (c : Char) : List Char → Option (List Char)
  | [] => none
  | x :: xs => if x == c then some xs else none

/-- `parseInt` on a digit string: left fold of decimal digits. -/
def natOfDigitsFrom (a : Nat) (l : List Char) : Nat :=
  l.foldl (fun acc c => acc * 10 + (c.toNat - 48)) a

def natOfDigits (l : List Char) : Nat := natOfDigitsFrom 0 l

/-- The parsed components returned on line 237–241: `version` and `hash` are
the matched substrings, `depth` is `parseInt(match[2], 10)` (exact here; the
digit strings of interest are far below 2^53). -/
structure ParsedVersionedHash where
  version : String
  depth : Nat
  hash : String
deriving DecidableEq

/-- The regex `^sha-inf-v([\d.]+)-d(\d+)-([a-f0-9]+)$` of line 231, as a
deterministic maximal-munch parser.  Greedy matching with backtracking is
equivalent to maximal munch for this pattern because each quantified class is
disjoint from the character that must follow it (`-` is in none of the
classes, and a digit run followed by anything but `-` cannot be rescued by
giving back digits); `parseVersionedHash_ok_iff_grammar` below proves this
parser accepts exactly the strings generated by the grammar. -/
def pvAux (l : List Char) : Option ParsedVersionedHash :=
  (dropLiteral "sha-inf-v".data l).bind fun r0 =>
    if (spanP isVerChar r0).1.isEmpty then none
    else
      (expectChar '-' (spanP isVerChar r0).2).bind fun r2 =>
        (expectChar 'd' r2).bind fun r3 =>
          if (spanP Char.isDigit r3).1.isEmpty then none
          else
            (expectChar '-' (spanP Char.isDigit r3).2).bind fun dig =>
              if dig.isEmpty then none
              else if dig.all isLowerHexChar then
                some ⟨String.mk (spanP isVerChar r0).1,
                  natOfDigits (spanP Char.isDigit r3).1, String.mk dig⟩
              else none

/-- `parseVersionedHash(versionedHashStr)` (lines 230–242): match the regex or
throw `Invalid versioned hash format`. -/
def parseVersionedHash (s : String) : Except String ParsedVersionedHash :=
  match pvAux s.data with
  | some r => .ok r
  | none => .error "Invalid versioned hash format"

/-! ### The versioned-hash grammar and the parser/grammar equivalence -/

/-- The language generated by the code's versioned-hash pattern, written as a
grammar (spec §6 production): the literal prefix `sha-inf-v`, a non-empty run
over `[0-9.]`, the literal `-d`, a non-empty run of digits, a literal `-`, and
a non-empty run of lowercase-hex characters, consuming the whole string.  Note
this transcribes the code's regex; the spec's stricter reading (exactly
`<major>.<minor>.<patch>`, positive depth, fixed digest length) is *not*
enforced by the code. -/
def VersionedHashGrammar (s : String) : Prop :=
  ∃ ver dep dig : List Char,
    s.data = "sha-inf-v".data ++ (ver ++ ('-' :: 'd' :: (dep ++ '-' :: dig))) ∧
      ver ≠ [] ∧ (∀ c ∈ ver, isVerChar c = true) ∧
      dep ≠ [] ∧ (∀ c ∈ dep, c.isDigit = true) ∧
      dig ≠ [] ∧ (∀ c ∈ dig, isLowerHexChar c = true)

/-- A concrete digest stand-in with non-empty lowercase-hex output. -/
def hexConstHash : String → String := fun _ => "ab"

/-- A concrete stand-in digest used to evaluate the code at specific inputs:
injective on its argument and never empty, so it exhibits the same structural
behaviour as a real hash. -/
def testHash : String → String := fun s => "H(" ++ s ++ ")"

/-- A concrete digest stand-in with a 2-cycle, making million-fold iterates
computable by a parity argument. -/
def hFlip : String → String := fun s => if s = "a" then "b" else "a"

/-! ### Hash chains (`hashChain`, lines 323–343) -/

/-- One chain link `{item, itemHash, chainHash}` (lines 330–334). -/
structure HashChainLink where
  item : String
  itemHash : String
  chainHash : String
deriving DecidableEq

/-- The result object of `hashChain` (lines 337–342). -/
structure HashChainResult where
  previousHash : Option String
  chain : List HashChainLink
  finalHash : String
  length : Nat
deriving DecidableEq

/-- The loop of lines 327–335: returns the links together with the final
value of `currentHash`. -/
def hashChainGo (h : String → String) (cur : String) :
    List String → List HashChainLink × String
  | [] => ([], cur)
  | item :: rest =>
    let itemHash := h item
    let chainHash := h (cur ++ itemHash)
    let next := hashChainGo h chainHash rest
    (⟨item, itemHash, chainHash⟩ :: next.1, next.2)

/-- `hashChain(items, previousHash)` (lines 323–343).  The source seeds
`currentHash` with `previousHash || sha256('genesis')`, so an absent *or
empty-string* previous hash falls back to the genesis digest (JS falsiness). -/
def hashChain (h : String → String) (items : List String)
    (previousHash : Option String) : HashChainResult :=
  let start :=
    match previousHash with
    | some p => if p = "" then h "genesis" else p
    | none => h "genesis"
  let run := hashChainGo h start items
  ⟨previousHash, run.1, run.2, run.1.length⟩

/-! ## Theorems -/

theorem iterApply_add (h : String → String) (m n : Nat) (s : String) :
    iterApply h (m + n) s = iterApply h n (iterApply h m s) := by
  induction m generalizing s with
  | zero => simp [iterApply]
  | succ k ih =>
    have : k + 1 + n = k + n + 1 := by omega
    rw [this, iterApply, iterApply, ih]

theorem iterApply_pos (h : String → String) (n : Nat) (s : String) (hn : 1 ≤ n) :
    ∃ y, iterApply h n s = h y := by
  induction n generalizing s with
  | zero => omega
  | succ k ih =>
    rcases Nat.eq_zero_or_pos k with hk | hk
    · subst hk; exact ⟨s, rfl⟩
    · rw [iterApply]; exact ih (h s) hk

theorem one_le_normDepth (d : JsDepth) : 1 ≤ normDepth d := by
  cases d with
  | inf => simp [normDepth]
  | fin d =>
    simp only [normDepth]
    split
    · omega
    · split
      · omega
      · omega

/-- With a digest that never returns the empty string, `shaInfinity` never
returns the empty string (its result is always a digest output). -/
theorem shaInfinity_ne_empty (h : String → String) (hne : ∀ s, h s ≠ "")
    (input : String) (depth : JsDepth) : shaInfinity h input depth ≠ "" := by
  obtain ⟨y, hy⟩ := iterApply_pos h (normDepth depth) input (one_le_normDepth depth)
  rw [shaInfinity, hy]
  exact hne y

/-! ### Claim C8: depth normalisation -/

/-- Claim C8: depth is normalized, not rejected.  For every digest `h` and
input `x`: a depth `d < 1` behaves as depth 1; a depth `e` above the
`maxDepth` ceiling of 1,000,000 (e.g. 10,000,000) behaves as `maxDepth`; and a
request for infinite depth behaves as `maxDepth` (never an unbounded loop —
`shaInfinity` is a total function). -/
theorem shaInfinity_normalizes_depth (h : String → String) (x : String)
    (d e : Int) (hd : d < 1) (he : e > 1000000) :
    shaInfinity h x (.fin d) = shaInfinity h x (.fin 1) ∧
      shaInfinity h x (.fin e) = shaInfinity h x (.fin 1000000) ∧
      shaInfinity h x .inf = shaInfinity h x (.fin 1000000) := by
  have h1 : normDepth (.fin d) = normDepth (.fin 1) := by
    simp only [normDepth]
    rw [if_pos hd, if_neg (by omega), if_neg (by omega)]
    omega
  have h2 : normDepth (.fin e) = normDepth (.fin 1000000) := by
    simp only [normDepth]
    rw [if_neg (by omega), if_pos (by omega), if_neg (by omega), if_neg (by omega)]
    omega
  have h3 : normDepth .inf = normDepth (.fin 1000000) := by
    simp only [normDepth]
    rw [if_neg (by omega), if_neg (by omega)]
    omega
  exact ⟨by rw [shaInfinity, h1, shaInfinity],
    by rw [shaInfinity, h2, shaInfinity],
    by rw [shaInfinity, h3, shaInfinity]⟩

/-- Witness for C8 at `d = 0`, `e = 10000000`, with a concrete digest. -/
theorem shaInfinity_normalizes_depth_witness :
    (0 : Int) < 1 ∧ (10000000 : Int) > 1000000 ∧
      (shaInfinity (fun s => "H(" ++ s ++ ")") "hello" (.fin 0) =
        shaInfinity (fun s => "H(" ++ s ++ ")") "hello" (.fin 1) ∧
      shaInfinity (fun s => "H(" ++ s ++ ")") "hello" (.fin 10000000) =
        shaInfinity (fun s => "H(" ++ s ++ ")") "hello" (.fin 1000000) ∧
      shaInfinity (fun s => "H(" ++ s ++ ")") "hello" .inf =
        shaInfinity (fun s => "H(" ++ s ++ ")") "hello" (.fin 1000000)) :=
  ⟨by decide, by decide,
    shaInfinity_normalizes_depth (fun s => "H(" ++ s ++ ")") "hello" 0 10000000
      (by decide) (by decide)⟩

/-! ### Claim C5: depth 1 versus a single digest -/

/-- Counterexample to claim C5: for the raw byte-buffer input `[0xFF]` (not
valid UTF-8), `shaInfinity(x, 1)` hashes the UTF-8 re-encoding
`[0xEF, 0xBF, 0xBD]` of the lossily decoded `toString()` value U+FFFD, while
`sha256(x)` hashes the byte `0xFF` itself, so the two digests differ. -/
theorem shaInfinityJs_depth_one_buffer_mismatch :
    shaInfinityJs byteHash (.buf [255]) (.fin 1) ≠
      sha256Js byteHash (.buf [255]) := by
  decide

/-- Claim C5 as amended: `shaInfinity(x, 1) == sha256(x)` for every string
input `x`, and for every byte-buffer input whose bytes are valid UTF-8 (so
that the `toString()` round-trip of line 62 reproduces them); for buffers
containing invalid UTF-8 the lossy re-encoding can make the two differ. -/
theorem shaInfinityJs_depth_one (hB : List Nat → String) (x : JsValue)
    (hx : ∀ b, x = JsValue.buf b → utf8Encode (jsBufToString b) = b) :
    shaInfinityJs hB x (.fin 1) = sha256Js hB x := by
  cases x with
  | str s => rfl
  | buf b =>
    have hb := hx b rfl
    show hB (utf8Encode (jsBufToString b)) = hB b
    rw [hb]

/-- Witness for the amended C5 at the valid-UTF-8 buffer `[104, 105]`. -/
theorem shaInfinityJs_depth_one_witness :
    (∀ b, JsValue.buf [104, 105] = JsValue.buf b →
        utf8Encode (jsBufToString b) = b) ∧
      shaInfinityJs byteHash (.buf [104, 105]) (.fin 1) =
        sha256Js byteHash (.buf [104, 105]) :=
  ⟨fun b hb => by injection hb with h; subst h; decide,
    shaInfinityJs_depth_one byteHash (.buf [104, 105])
      (fun b hb => by injection hb with h; subst h; decide)⟩

theorem pairUp_length (h : String → String) :
    ∀ l : List String, (pairUp h l).length = (l.length + 1) / 2
  | [] => rfl
  | [_] => by simp [pairUp]
  | _ :: _ :: rest => by
    simp only [pairUp, List.length_cons, pairUp_length h rest]
    omega

theorem buildLevelsFuel_congr (h : String → String) :
    ∀ f1 f2 : Nat, ∀ lvl : List String, lvl.length ≤ f1 → lvl.length ≤ f2 →
      buildLevelsFuel h f1 lvl = buildLevelsFuel h f2 lvl := by
  intro f1
  induction f1 with
  | zero =>
    intro f2 lvl h1 h2
    have : lvl = [] := List.eq_nil_of_length_eq_zero (by omega)
    subst this
    cases f2 with
    | zero => rfl
    | succ f2' => simp [buildLevelsFuel]
  | succ f1' ih =>
    intro f2 lvl h1 h2
    by_cases hl : lvl.length ≤ 1
    · cases f2 with
      | zero =>
        have : lvl = [] := List.eq_nil_of_length_eq_zero (by omega)
        subst this
        simp [buildLevelsFuel]
      | succ f2' => simp [buildLevelsFuel, hl]
    · cases f2 with
      | zero => omega
      | succ f2' =>
        have hp := pairUp_length h lvl
        simp only [buildLevelsFuel, if_neg hl]
        rw [ih f2' (pairUp h lvl) (by omega) (by omega)]

/-- The defining recurrence of `buildLevels`, mirroring the source loop
directly. -/
theorem buildLevels_eq (h : String → String) (lvl : List String) :
    buildLevels h lvl =
      if lvl.length ≤ 1 then [lvl] else lvl :: buildLevels h (pairUp h lvl) := by
  by_cases hl : lvl.length ≤ 1
  · rw [if_pos hl]
    rcases lvl with _ | ⟨a, _ | ⟨b, t⟩⟩
    · rfl
    · rfl
    · simp at hl
  · rw [if_neg hl]
    have hp := pairUp_length h lvl
    obtain ⟨n, he⟩ : ∃ n, lvl.length = n + 1 := ⟨lvl.length - 1, by omega⟩
    rw [buildLevels, he]
    simp only [buildLevelsFuel, if_neg hl]
    rw [buildLevels]
    exact congrArg _
      (buildLevelsFuel_congr h n (pairUp h lvl).length (pairUp h lvl) (by omega) le_rfl)

/-! ### Lemmas about decimal rendering and the maximal-munch steps -/

theorem digitChar_toNat (d : Nat) : (digitChar d).toNat = 48 + d % 10 := by
  have h : d % 10 < 10 := Nat.mod_lt _ (by omega)
  obtain ⟨m, hm⟩ : ∃ m, d % 10 = m := ⟨_, rfl⟩
  unfold digitChar
  rw [hm] at h ⊢
  interval_cases m <;> decide

theorem digitChar_isDigit (d : Nat) : (digitChar d).isDigit = true := by
  have h : d % 10 < 10 := Nat.mod_lt _ (by omega)
  obtain ⟨m, hm⟩ : ∃ m, d % 10 = m := ⟨_, rfl⟩
  unfold digitChar
  rw [hm] at h ⊢
  interval_cases m <;> decide

theorem natDigitsFuel_append : ∀ fuel n : Nat, ∀ acc : List Char,
    natDigitsFuel fuel n acc = natDigitsFuel fuel n [] ++ acc
  | 0, n, acc => rfl
  | fuel + 1, n, acc => by
    by_cases hn : n < 10
    · simp [natDigitsFuel, hn]
    · simp only [natDigitsFuel, if_neg hn]
      rw [natDigitsFuel_append fuel (n / 10) (digitChar (n % 10) :: acc),
        natDigitsFuel_append fuel (n / 10) [digitChar (n % 10)]]
      simp

theorem natDigitsFuel_spec : ∀ fuel n : Nat, n ≤ fuel →
    natDigitsFuel fuel n [] ≠ [] ∧
      (∀ c ∈ natDigitsFuel fuel n [], c.isDigit = true) ∧
      ∀ a, natOfDigitsFrom a (natDigitsFuel fuel n []) =
        a * 10 ^ (natDigitsFuel fuel n []).length + n := by
  intro fuel
  induction fuel with
  | zero =>
    intro n hn
    have hn0 : n = 0 := by omega
    subst hn0
    refine ⟨by simp [natDigitsFuel], ?_, ?_⟩
    · intro c hc
      simp only [natDigitsFuel, List.mem_singleton] at hc
      exact hc ▸ digitChar_isDigit 0
    · intro a
      show a * 10 + ((digitChar 0).toNat - 48) = a * 10 ^ 1 + 0
      rw [digitChar_toNat]
      omega
  | succ f ih =>
    intro n hn
    by_cases h10 : n < 10
    · simp only [natDigitsFuel, if_pos h10]
      refine ⟨by simp, ?_, ?_⟩
      · intro c hc
        simp only [List.mem_singleton] at hc
        exact hc ▸ digitChar_isDigit n
      · intro a
        show a * 10 + ((digitChar n).toNat - 48) = a * 10 ^ 1 + n
        rw [digitChar_toNat]
        omega
    · simp only [natDigitsFuel, if_neg h10]
      rw [natDigitsFuel_append f (n / 10) [digitChar (n % 10)]]
      have hdiv : n / 10 ≤ f := by
        have := Nat.div_lt_self (show 0 < n by omega) (show 1 < 10 by omega)
        omega
      obtain ⟨hne, hdig, hval⟩ := ih (n / 10) hdiv
      refine ⟨by simp, ?_, ?_⟩
      · intro c hc
        rw [List.mem_append] at hc
        rcases hc with hc | hc
        · exact hdig c hc
        · simp only [List.mem_singleton] at hc
          exact hc ▸ digitChar_isDigit (n % 10)
      · intro a
        rw [natOfDigitsFrom, List.foldl_append]
        have hstep :
            List.foldl (fun acc c => acc * 10 + (c.toNat - 48))
                (List.foldl (fun acc c => acc * 10 + (c.toNat - 48)) a
                  (natDigitsFuel f (n / 10) []))
                [digitChar (n % 10)] =
              (natOfDigitsFrom a (natDigitsFuel f (n / 10) [])) * 10 +
                ((digitChar (n % 10)).toNat - 48) := rfl
        rw [hstep, hval a, digitChar_toNat]
        have hlen : (natDigitsFuel f (n / 10) [] ++ [digitChar (n % 10)]).length =
            (natDigitsFuel f (n / 10) []).length + 1 := by simp
        rw [hlen, pow_succ]
        have expand : (a * 10 ^ (natDigitsFuel f (n / 10) []).length + n / 10) * 10 =
            a * (10 ^ (natDigitsFuel f (n / 10) []).length * 10) + n / 10 * 10 := by
          ring
        rw [expand]
        generalize a * (10 ^ (natDigitsFuel f (n / 10) []).length * 10) = B
        omega

theorem natDigits_props (n : Nat) :
    natDigits n ≠ [] ∧ (∀ c ∈ natDigits n, c.isDigit = true) ∧
      natOfDigits (natDigits n) = n := by
  obtain ⟨h1, h2, h3⟩ := natDigitsFuel_spec n n le_rfl
  exact ⟨h1, h2, by rw [natDigits, natOfDigits, h3 0]; omega⟩

theorem spanP_append (p : Char → Bool) :
    ∀ xs : List Char, ∀ y : Char, ∀ r : List Char,
      (∀ c ∈ xs, p c = true) → p y = false →
      spanP p (xs ++ y :: r) = (xs, y :: r)
  | [], y, r, _, hy => by simp [spanP, hy]
  | x :: xs, y, r, hxs, hy => by
    have hx : p x = true := hxs x (by simp)
    have hrec := spanP_append p xs y r (fun c hc => hxs c (by simp [hc])) hy
    simp only [List.cons_append, spanP, List.append_eq, if_pos hx, hrec]

theorem spanP_eq (p : Char → Bool) :
    ∀ l : List Char, (spanP p l).1 ++ (spanP p l).2 = l ∧
      ∀ c ∈ (spanP p l).1, p c = true
  | [] => ⟨rfl, by simp [spanP]⟩
  | c :: cs => by
    by_cases hc : p c
    · simp only [spanP, if_pos hc]
      obtain ⟨h1, h2⟩ := spanP_eq p cs
      refine ⟨by simpa using h1, ?_⟩
      intro x hx
      simp only [List.mem_cons] at hx
      rcases hx with rfl | hx
      · exact hc
      · exact h2 x hx
    · simp [spanP, hc]

theorem dropLiteral_append : ∀ p r : List Char, dropLiteral p (p ++ r) = some r
  | [], _ => rfl
  | c :: ps, r => by
    show (if c == c then dropLiteral ps (ps ++ r) else none) = some r
    rw [if_pos (by simp), dropLiteral_append ps r]

theorem dropLiteral_sound : ∀ p l r : List Char, dropLiteral p l = some r → l = p ++ r
  | [], l, r, h => by
    simp only [dropLiteral, Option.some.injEq] at h
    simp [h]
  | _ :: _, [], _, h => by simp [dropLiteral] at h
  | p :: ps, c :: cs, r, h => by
    by_cases hc : c == p
    · rw [dropLiteral, if_pos hc] at h
      have := dropLiteral_sound ps cs r h
      simp [this, eq_of_beq hc]
    · rw [dropLiteral, if_neg hc] at h
      exact absurd h (by simp)

theorem expectChar_sound (c : Char) (l r : List Char)
    (h : expectChar c l = some r) : l = c :: r := by
  cases l with
  | nil => simp [expectChar] at h
  | cons x xs =>
    by_cases hx : x == c
    · rw [expectChar, if_pos hx] at h
      simp only [Option.some.injEq] at h
      simp [h, eq_of_beq hx]
    · rw [expectChar, if_neg hx] at h
      exact absurd h (by simp)

theorem pvAux_decomp (l : List Char) (ver dep dig : List Char)
    (hl : l = "sha-inf-v".data ++ (ver ++ ('-' :: 'd' :: (dep ++ '-' :: dig))))
    (hver : ver ≠ []) (hverc : ∀ c ∈ ver, isVerChar c = true)
    (hdep : dep ≠ []) (hdepc : ∀ c ∈ dep, c.isDigit = true)
    (hdig : dig ≠ []) (hdigc : ∀ c ∈ dig, isLowerHexChar c = true) :
    pvAux l = some ⟨String.mk ver, natOfDigits dep, String.mk dig⟩ := by
  have hsp1 : spanP isVerChar (ver ++ ('-' :: 'd' :: (dep ++ '-' :: dig))) =
      (ver, '-' :: 'd' :: (dep ++ '-' :: dig)) :=
    spanP_append isVerChar ver '-' ('d' :: (dep ++ '-' :: dig)) hverc (by decide)
  have hsp2 : spanP Char.isDigit (dep ++ '-' :: dig) = (dep, '-' :: dig) :=
    spanP_append Char.isDigit dep '-' dig hdepc (by decide)
  have hallg : dig.all isLowerHexChar = true := List.all_eq_true.mpr hdigc
  obtain ⟨v0, vtl, rfl⟩ := List.exists_cons_of_ne_nil hver
  obtain ⟨d0, dtl, rfl⟩ := List.exists_cons_of_ne_nil hdep
  obtain ⟨g0, gtl, rfl⟩ := List.exists_cons_of_ne_nil hdig
  subst hl
  rw [pvAux, dropLiteral_append]
  simp only [List.cons_append] at hsp1 hsp2
  simp [hsp1, hsp2, expectChar, hallg]
  exact ⟨hdigc g0 (by simp), fun x hx => hdigc x (by simp [hx])⟩

theorem pvAux_sound (l : List Char) (r : ParsedVersionedHash)
    (hpv : pvAux l = some r) :
    ∃ ver dep dig : List Char,
      l = "sha-inf-v".data ++ (ver ++ ('-' :: 'd' :: (dep ++ '-' :: dig))) ∧
        ver ≠ [] ∧ (∀ c ∈ ver, isVerChar c = true) ∧
        dep ≠ [] ∧ (∀ c ∈ dep, c.isDigit = true) ∧
        dig ≠ [] ∧ (∀ c ∈ dig, isLowerHexChar c = true) := by
  rw [pvAux] at hpv
  rcases hdl : dropLiteral "sha-inf-v".data l with _ | r0 <;> rw [hdl] at hpv
  · simp at hpv
  simp only [Option.some_bind] at hpv
  have hl0 := dropLiteral_sound _ _ _ hdl
  obtain ⟨hsp1eq, hsp1all⟩ := spanP_eq isVerChar r0
  by_cases hv : (spanP isVerChar r0).1.isEmpty
  · rw [if_pos hv] at hpv
    simp at hpv
  rw [if_neg hv] at hpv
  rcases he1 : expectChar '-' (spanP isVerChar r0).2 with _ | r2 <;> rw [he1] at hpv
  · simp at hpv
  simp only [Option.some_bind] at hpv
  have hr1 := expectChar_sound _ _ _ he1
  rcases he2 : expectChar 'd' r2 with _ | r3 <;> rw [he2] at hpv
  · simp at hpv
  simp only [Option.some_bind] at hpv
  have hr2 := expectChar_sound _ _ _ he2
  obtain ⟨hsp2eq, hsp2all⟩ := spanP_eq Char.isDigit r3
  by_cases hd : (spanP Char.isDigit r3).1.isEmpty
  · rw [if_pos hd] at hpv
    simp at hpv
  rw [if_neg hd] at hpv
  rcases he3 : expectChar '-' (spanP Char.isDigit r3).2 with _ | dig <;> rw [he3] at hpv
  · simp at hpv
  simp only [Option.some_bind] at hpv
  have hr4 := expectChar_sound _ _ _ he3
  by_cases hg : dig.isEmpty
  · rw [if_pos hg] at hpv
    simp at hpv
  rw [if_neg hg] at hpv
  by_cases hall : dig.all isLowerHexChar
  · obtain ⟨ver', hver'⟩ : ∃ v, (spanP isVerChar r0).1 = v := ⟨_, rfl⟩
    obtain ⟨dep', hdep'⟩ : ∃ v, (spanP Char.isDigit r3).1 = v := ⟨_, rfl⟩
    rw [hver'] at hsp1all hv
    rw [hdep'] at hsp2all hd
    refine ⟨ver', dep', dig, ?_, by simpa [List.isEmpty_iff] using hv, hsp1all,
      by simpa [List.isEmpty_iff] using hd, hsp2all,
      by simpa [List.isEmpty_iff] using hg, List.all_eq_true.mp hall⟩
    rw [hl0, ← hsp1eq, hver', hr1, hr2, ← hsp2eq, hdep', hr4]
  · rw [if_neg hall] at hpv
    simp at hpv

/-! ### Claim C3: what the parser rejects and accepts -/

/-- Counterexample to claim C3: the digest segment's length is *not* checked.
The string `sha-inf-v1.0.0-d1-ab` carries a 2-character digest segment — the
wrong length for any SHA-256 hex digest, which has 64 characters — yet
`parseVersionedHash` accepts it instead of raising an error. -/
theorem parseVersionedHash_accepts_wrong_length_digest :
    parseVersionedHash "sha-inf-v1.0.0-d1-ab" =
        Except.ok ⟨"1.0.0", 1, "ab"⟩ ∧
      ("ab" : String).length ≠ 64 := by
  exact ⟨rfl, by decide⟩

/-- Claim C3 as amended: `parseVersionedHash` succeeds exactly on the strings
of the regex language `^sha-inf-v([0-9.]+)-d([0-9]+)-([a-f0-9]+)$` — so every
string outside that grammar (in particular one whose digest segment is empty
or contains a non-hex character) is rejected with an error and never coerced
into a parse result — but the digest segment's *length* is not validated:
any non-empty lowercase-hex run is accepted. -/
theorem parseVersionedHash_ok_iff_grammar (s : String) :
    (∃ r, parseVersionedHash s = Except.ok r) ↔ VersionedHashGrammar s := by
  constructor
  · rintro ⟨r, hr⟩
    rw [parseVersionedHash] at hr
    rcases hpv : pvAux s.data with _ | r' <;> rw [hpv] at hr
    · simp at hr
    · exact pvAux_sound s.data r' hpv
  · rintro ⟨ver, dep, dig, hs, hver, hverc, hdep, hdepc, hdig, hdigc⟩
    refine ⟨⟨String.mk ver, natOfDigits dep, String.mk dig⟩, ?_⟩
    rw [parseVersionedHash, pvAux_decomp s.data ver dep dig hs hver hverc hdep hdepc hdig hdigc]

/-! ### Claim C6: the format/parse round-trip -/

/-- Claim C6: for every digest `h` whose outputs are non-empty lowercase-hex
strings (true of hex-encoded SHA-256), every input `x` and every depth
`d ∈ [1, maxDepth]`, parsing the formatted versioned hash reproduces the
exact triple: version `1.0.0` (the configured current version), depth `d`,
and hash `shaInfinity(x, d)`. -/
theorem parseVersionedHash_roundtrip (h : String → String)
    (hhex : ∀ s, (h s).data ≠ [] ∧ ∀ c ∈ (h s).data, isLowerHexChar c = true)
    (x : String) (d : Nat) (hd1 : 1 ≤ d) (hd2 : d ≤ 1000000) :
    parseVersionedHash (versionedHash h x (d : Int)) =
      Except.ok ⟨SHA_INFINITY_CONFIG.version, d,
        shaInfinity h x (.fin (d : Int))⟩ := by
  obtain ⟨hdignil, hdigall⟩ : (shaInfinity h x (.fin (d : Int))).data ≠ [] ∧
      ∀ c ∈ (shaInfinity h x (.fin (d : Int))).data, isLowerHexChar c = true := by
    obtain ⟨y, hy⟩ := iterApply_pos h (normDepth (.fin (d : Int))) x
      (one_le_normDepth _)
    rw [shaInfinity, hy]
    exact hhex y
  obtain ⟨hdnil, hdall, hdval⟩ := natDigits_props d
  have hnum : jsNumToString (d : Int) = String.mk (natDigits d) := by
    rw [jsNumToString, if_neg (by omega), Int.toNat_natCast]
  have hdata : (versionedHash h x (d : Int)).data =
      "sha-inf-v".data ++ ("1.0.0".data ++ ('-' :: 'd' ::
        (natDigits d ++ '-' :: (shaInfinity h x (.fin (d : Int))).data))) := by
    rw [versionedHash, hnum]
    show ("sha-inf-v" ++ SHA_INFINITY_CONFIG.version ++ "-d" ++ String.mk (natDigits d) ++
      "-" ++ shaInfinity h x (.fin (d : Int))).data = _
    simp [String.data_append, SHA_INFINITY_CONFIG, List.append_assoc]
  have hok := pvAux_decomp (versionedHash h x (d : Int)).data "1.0.0".data
    (natDigits d) (shaInfinity h x (.fin (d : Int))).data hdata
    (by decide) (by decide) hdnil hdall hdignil hdigall
  rw [parseVersionedHash, hok]
  have hverstr : String.mk "1.0.0".data = SHA_INFINITY_CONFIG.version := rfl
  have hhashstr : String.mk (shaInfinity h x (.fin (d : Int))).data =
      shaInfinity h x (.fin (d : Int)) := rfl
  rw [hverstr, hhashstr, hdval]

theorem hexConstHash_hex : ∀ s, (hexConstHash s).data ≠ [] ∧
    ∀ c ∈ (hexConstHash s).data, isLowerHexChar c = true :=
  fun _ => ⟨(by decide : ("ab" : String).data ≠ []),
    (by decide : ∀ c ∈ ("ab" : String).data, isLowerHexChar c = true)⟩

/-- Witness for C6 at `x = "x"`, `d = 3`. -/
theorem parseVersionedHash_roundtrip_witness :
    (∀ s, (hexConstHash s).data ≠ [] ∧
        ∀ c ∈ (hexConstHash s).data, isLowerHexChar c = true) ∧
      1 ≤ 3 ∧ 3 ≤ 1000000 ∧
      parseVersionedHash (versionedHash hexConstHash "x" ((3 : Nat) : Int)) =
        Except.ok ⟨SHA_INFINITY_CONFIG.version, 3,
          shaInfinity hexConstHash "x" (.fin ((3 : Nat) : Int))⟩ :=
  ⟨hexConstHash_hex, by decide, by decide,
    parseVersionedHash_roundtrip hexConstHash hexConstHash_hex "x" 3
      (by decide) (by decide)⟩

/-! ### Structural lemmas about `buildLevels` -/

theorem getLast?_cons_ne {α : Type} (a : α) (t : List α) (ht : t ≠ []) :
    (a :: t).getLast? = t.getLast? := by
  cases t with
  | nil => exact absurd rfl ht
  | cons b t' => exact List.getLast?_cons_cons

theorem buildLevels_get_zero (h : String → String) (l : List String) :
    (buildLevels h l).get? 0 = some l := by
  rw [buildLevels_eq]
  split <;> rfl

theorem pairUp_ne_nil (h : String → String) (l : List String) (hl : 2 ≤ l.length) :
    pairUp h l ≠ [] := by
  have := pairUp_length h l
  intro hc
  rw [hc] at this
  simp at this
  omega

theorem buildLevels_chain (h : String → String) (l : List String) (k : Nat)
    (lk lk1 : List String) (h1 : (buildLevels h l).get? k = some lk)
    (h2 : (buildLevels h l).get? (k + 1) = some lk1) : lk1 = pairUp h lk := by
  rw [buildLevels_eq] at h1 h2
  by_cases hc : l.length ≤ 1
  · rw [if_pos hc] at h1 h2
    rcases k with _ | k
    · simp at h2
    · simp at h1
  · rw [if_neg hc] at h1 h2
    rcases k with _ | k
    · simp only [List.get?_cons_zero, Option.some.injEq] at h1
      subst h1
      rw [List.get?_cons_succ, buildLevels_get_zero] at h2
      exact (Option.some.injEq _ _ ▸ h2).symm
    · rw [List.get?_cons_succ] at h1 h2
      exact buildLevels_chain h (pairUp h l) k lk lk1 h1 h2
termination_by l.length
decreasing_by simp only [pairUp_length]; omega

theorem buildLevels_last (h : String → String) (l : List String) (hne : l ≠ []) :
    ∃ r, (buildLevels h l).getLast? = some [r] := by
  rw [buildLevels_eq]
  by_cases hc : l.length ≤ 1
  · rw [if_pos hc]
    match l, hne with
    | [a], _ => exact ⟨a, rfl⟩
    | a :: b :: t, _ => simp at hc
  · rw [if_neg hc]
    have hp : pairUp h l ≠ [] := pairUp_ne_nil h l (by omega)
    obtain ⟨r, hr⟩ := buildLevels_last h (pairUp h l) hp
    refine ⟨r, ?_⟩
    rw [getLast?_cons_ne _ _ ?bne, hr]
    case bne =>
      rw [buildLevels_eq]
      split <;> simp
termination_by l.length
decreasing_by simp only [pairUp_length]; omega

theorem pairUp_mem_ne (h : String → String) (hne : ∀ s, h s ≠ "") :
    ∀ l : List String, ∀ x ∈ pairUp h l, x ≠ ""
  | [], x, hx => by simp [pairUp] at hx
  | [a], x, hx => by
    simp only [pairUp, List.mem_singleton] at hx
    exact hx ▸ hne _
  | a :: b :: rest, x, hx => by
    simp only [pairUp, List.mem_cons] at hx
    rcases hx with hx | hx
    · exact hx ▸ hne _
    · exact pairUp_mem_ne h hne rest x hx

theorem buildLevels_mem_ne (h : String → String) (hne : ∀ s, h s ≠ "")
    (l : List String) (hl : ∀ x ∈ l, x ≠ "") :
    ∀ lvl ∈ buildLevels h l, ∀ x ∈ lvl, x ≠ "" := by
  intro lvl hlvl
  rw [buildLevels_eq] at hlvl
  by_cases hc : l.length ≤ 1
  · rw [if_pos hc] at hlvl
    simp only [List.mem_singleton] at hlvl
    exact hlvl ▸ hl
  · rw [if_neg hc] at hlvl
    simp only [List.mem_cons] at hlvl
    rcases hlvl with hlvl | hlvl
    · exact hlvl ▸ hl
    · exact buildLevels_mem_ne h hne (pairUp h l) (pairUp_mem_ne h hne _) lvl hlvl
termination_by l.length
decreasing_by simp only [pairUp_length]; omega

theorem pairUp_get (h : String → String) :
    ∀ l : List String, (∀ x ∈ l, x ≠ "") → ∀ j : Nat, j < (pairUp h l).length →
      ∃ left, l.get? (2 * j) = some left ∧
        (pairUp h l).get? j = some (h (left ++ ((l.get? (2 * j + 1)).getD left)))
  | [], _, j, hj => by simp [pairUp] at hj
  | [a], _, j, hj => by
    simp only [pairUp, List.length_singleton] at hj
    interval_cases j
    exact ⟨a, rfl, rfl⟩
  | a :: b :: rest, hl, j, hj => by
    rcases j with _ | j
    · refine ⟨a, rfl, ?_⟩
      have hb : b ≠ "" := hl b (by simp)
      simp [pairUp, hb]
    · simp only [pairUp, List.length_cons] at hj
      have hrest : ∀ x ∈ rest, x ≠ "" := fun x hx => hl x (by simp [hx])
      obtain ⟨left, hget, hpu⟩ := pairUp_get h rest hrest j (by omega)
      refine ⟨left, ?_, ?_⟩
      · have e : 2 * (j + 1) = 2 * j + 1 + 1 := by omega
        rw [e, List.get?_cons_succ, List.get?_cons_succ]
        exact hget
      · have e : 2 * (j + 1) + 1 = 2 * j + 1 + 1 + 1 := by omega
        rw [e, List.get?_cons_succ, List.get?_cons_succ]
        simpa [pairUp] using hpu

theorem merkleTree_nonempty_def (h : String → String) (items : List String)
    (d : JsDepth) (hitems : items ≠ []) :
    merkleTree h items d =
      ⟨((buildLevels h (items.map fun item => shaInfinity h item d)).getLastD []).headD "",
        items.map fun item => shaInfinity h item d,
        buildLevels h (items.map fun item => shaInfinity h item d),
        items.length⟩ := by
  rw [merkleTree, if_neg (by simp [List.isEmpty_iff, hitems])]

theorem merkleTree_levels (h : String → String) (items : List String)
    (d : JsDepth) (hitems : items ≠ []) :
    (merkleTree h items d).levels =
      buildLevels h (items.map fun item => shaInfinity h item d) := by
  rw [merkleTree_nonempty_def h items d hitems]

theorem merkleTree_leaves_length (h : String → String) (items : List String)
    (d : JsDepth) : (merkleTree h items d).leaves.length = items.length := by
  by_cases hitems : items = []
  · subst hitems
    rfl
  · rw [merkleTree_nonempty_def h items d hitems]
    simp

/-! ### Claim C4: the tree invariants -/

/-- Claim C4 (confirmed under the standing assumption that the external digest
never returns the empty string — real SHA-256 hex digests are 64 characters):
for every non-empty item sequence and depth, level 0 of the tree built by
`merkleTree` is the sequence of iterated leaf hashes; every level `k+1` has
`ceil(len(level k)/2) = (len(level k)+1)/2` entries; entry `j` of level `k+1`
is the single (non-iterated) digest of `left ++ right` where `left` is entry
`2j` of level `k` and `right` is entry `2j+1` when it exists and `left` itself
for an odd final element (self-duplication, not dropping or zero-padding);
and the last level is exactly `[root]`. -/
theorem merkleTree_invariants (h : String → String) (hne : ∀ s, h s ≠ "")
    (items : List String) (d : JsDepth) (hitems : items ≠ []) :
    (merkleTree h items d).levels.get? 0 =
        some (items.map fun item => shaInfinity h item d) ∧
      (∀ k lk lk1, (merkleTree h items d).levels.get? k = some lk →
        (merkleTree h items d).levels.get? (k + 1) = some lk1 →
        lk1.length = (lk.length + 1) / 2 ∧
          ∀ j, j < lk1.length → ∃ left, lk.get? (2 * j) = some left ∧
            lk1.get? j = some (h (left ++ ((lk.get? (2 * j + 1)).getD left)))) ∧
      (merkleTree h items d).levels.getLast? = some [(merkleTree h items d).root] := by
  have hlv := merkleTree_levels h items d hitems
  have hleaf : ∀ x ∈ items.map fun item => shaInfinity h item d, x ≠ "" := by
    intro x hx
    obtain ⟨it, _, rfl⟩ := List.mem_map.mp hx
    exact shaInfinity_ne_empty h hne it d
  refine ⟨?_, ?_, ?_⟩
  · rw [hlv, buildLevels_get_zero]
  · intro k lk lk1 h1 h2
    rw [hlv] at h1 h2
    have hchain := buildLevels_chain h _ k lk lk1 h1 h2
    have hmem : ∀ x ∈ lk, x ≠ "" :=
      buildLevels_mem_ne h hne _ hleaf lk (List.get?_mem h1)
    subst hchain
    exact ⟨pairUp_length h lk, fun j hj => pairUp_get h lk hmem j hj⟩
  · have hmapne : (items.map fun item => shaInfinity h item d) ≠ [] := by
      simpa using hitems
    obtain ⟨r, hr⟩ := buildLevels_last h _ hmapne
    rw [merkleTree_nonempty_def h items d hitems]
    dsimp only
    rw [List.getLastD_eq_getLast?, hr]
    rfl

theorem testHash_ne_empty : ∀ s, testHash s ≠ "" := by
  intro s heq
  have hlen := congrArg String.length heq
  simp only [testHash, String.length_append] at hlen
  have h1 : String.length "H(" = 2 := rfl
  have h2 : String.length ")" = 1 := rfl
  have h3 : String.length "" = 0 := rfl
  omega

/-- Witness for C4 at `items = ["a","b","c"]`, `depth = 1`. -/
theorem merkleTree_invariants_witness :
    (∀ s, testHash s ≠ "") ∧ (["a", "b", "c"] : List String) ≠ [] ∧
      ((merkleTree testHash ["a", "b", "c"] (.fin 1)).levels.get? 0 =
          some (["a", "b", "c"].map fun item => shaInfinity testHash item (.fin 1)) ∧
        (∀ k lk lk1,
          (merkleTree testHash ["a", "b", "c"] (.fin 1)).levels.get? k = some lk →
          (merkleTree testHash ["a", "b", "c"] (.fin 1)).levels.get? (k + 1) = some lk1 →
          lk1.length = (lk.length + 1) / 2 ∧
            ∀ j, j < lk1.length → ∃ left, lk.get? (2 * j) = some left ∧
              lk1.get? j = some (testHash (left ++ ((lk.get? (2 * j + 1)).getD left)))) ∧
        (merkleTree testHash ["a", "b", "c"] (.fin 1)).levels.getLast? =
          some [(merkleTree testHash ["a", "b", "c"] (.fin 1)).root]) :=
  ⟨testHash_ne_empty, by decide,
    merkleTree_invariants testHash testHash_ne_empty ["a", "b", "c"] (.fin 1) (by decide)⟩

/-! ### Claim C1: generated inclusion proofs fail to verify on odd tails -/

/-- Claim C1 is false of the code (a genuine bug): for `items = ["a","b","c"]`,
`index = 2`, `depth = 1`, the generator returns the correct leaf hash but skips
recording any step for the self-duplicated odd tail, while the tree hashed
that leaf with itself; the verifier therefore recomputes
`H(H(a++b-level) ++ leaf)` instead of `H(H(a++b-level) ++ H(leaf ++ leaf))`
and returns `false` where the claim requires `true`. -/
theorem merkleProof_roundtrip_fails_on_odd_tail :
    (merkleProof testHash ["a", "b", "c"] 2 (.fin 1)).leaf =
        some (shaInfinity testHash "c" (.fin 1)) ∧
      verifyMerkleProof testHash
        ((merkleProof testHash ["a", "b", "c"] 2 (.fin 1)).leaf.getD "")
        (merkleProof testHash ["a", "b", "c"] 2 (.fin 1)).proof
        (merkleTree testHash ["a", "b", "c"] (.fin 1)).root = false := by
  exact ⟨by decide, by decide⟩

/-! ### Claim C2: out-of-range proof requests do not fail -/

/-- Counterexample to claim C2: at `items = ["a","b","c"]`, `index = 5`,
`merkleProof` raises no error at all; it returns a best-effort object carrying
the tree root, `leaf: undefined` and an empty sibling list. -/
theorem merkleProof_out_of_range_returns_object :
    merkleProof testHash ["a", "b", "c"] 5 (.fin 1) =
      ⟨"H(H(H(a)H(b))H(H(c)H(c)))", none, [], 5⟩ := by
  decide

/-- Claim C2 as amended: `merkleProof` performs no bounds check; for every
index outside `[0, len(items))` it still returns a result object (with the
tree's root and an absent leaf) instead of failing with an out-of-range
error. -/
theorem merkleProof_out_of_range_leaf_none (h : String → String)
    (items : List String) (d : JsDepth) (index : Int)
    (hout : index < 0 ∨ (items.length : Int) ≤ index) :
    (merkleProof h items index d).leaf = none ∧
      (merkleProof h items index d).root = (merkleTree h items d).root := by
  refine ⟨?_, rfl⟩
  show jsIndex (merkleTree h items d).leaves index = none
  rw [jsIndex]
  rcases hout with hneg | hge
  · rw [if_pos hneg]
  · rw [if_neg (by omega)]
    rw [List.get?_eq_none, merkleTree_leaves_length]
    omega

/-- Witness for the amended C2 at `index = 5`, `items = ["a","b","c"]`. -/
theorem merkleProof_out_of_range_leaf_none_witness :
    ((5 : Int) < 0 ∨ (((["a", "b", "c"] : List String).length : Int) ≤ 5)) ∧
      ((merkleProof testHash ["a", "b", "c"] 5 (.fin 1)).leaf = none ∧
        (merkleProof testHash ["a", "b", "c"] 5 (.fin 1)).root =
          (merkleTree testHash ["a", "b", "c"] (.fin 1)).root) :=
  ⟨Or.inr (by decide),
    merkleProof_out_of_range_leaf_none testHash ["a", "b", "c"] (.fin 1) 5
      (Or.inr (by decide))⟩

/-! ### Claim C7: additivity of iteration depth -/

theorem hFlip_hFlip (s : String) (hs : s = "a" ∨ s = "b") : hFlip (hFlip s) = s := by
  rcases hs with rfl | rfl <;> rfl

theorem iterApply_hFlip_even (n : Nat) (s : String) (hs : s = "a" ∨ s = "b") :
    iterApply hFlip (2 * n) s = s := by
  induction n with
  | zero => rfl
  | succ k ih =>
    have h2 : 2 * (k + 1) = 2 + 2 * k := by omega
    have hstep : iterApply hFlip 2 s = hFlip (hFlip s) := rfl
    rw [h2, iterApply_add, hstep, hFlip_hFlip s hs]
    exact ih

theorem iterApply_hFlip_1M : iterApply hFlip 1000000 "" = "b" := by
  have e1 : (1000000 : Nat) = 2 + 2 * 499999 := by omega
  have hstep : iterApply hFlip 2 "" = "b" := rfl
  rw [e1, iterApply_add, hstep]
  exact iterApply_hFlip_even 499999 "b" (Or.inr rfl)

/-- Counterexample to claim C7: additivity fails once `a + b` crosses the
`maxDepth` clamp.  At `a = 1000000`, `b = 1` (both ≥ 1), the left side
`shaInfinity(x, a+b)` is clamped to 1,000,000 iterations while the right side
performs 1,000,001, and with the concrete 2-cycle digest `hFlip` the two
results differ. -/
theorem shaInfinity_additivity_fails_at_clamp :
    shaInfinity hFlip "" (.fin (1000000 + 1)) ≠
      shaInfinity hFlip (shaInfinity hFlip "" (.fin 1000000)) (.fin 1) := by
  have hn1 : normDepth (.fin (1000000 + 1)) = 1000000 := by
    simp only [normDepth]
    rw [if_neg (by omega), if_pos (by omega)]
  have hn2 : normDepth (.fin 1000000) = 1000000 := by
    simp only [normDepth]
    rw [if_neg (by omega), if_neg (by omega)]
    omega
  simp only [shaInfinity, hn1, hn2, iterApply_hFlip_1M]
  decide

/-- Claim C7 as amended: iterated hashing composes additively whenever the
combined depth stays within the clamp: for all depths `a, b ≥ 1` with
`a + b ≤ maxDepth = 1,000,000`,
`shaInfinity(x, a+b) == shaInfinity(shaInfinity(x, a), b)`.  (When `a + b`
exceeds `maxDepth` the left side is clamped while the right side keeps
iterating, so the unconditional law of the claim fails.) -/
theorem shaInfinity_depth_additive (h : String → String) (x : String)
    (a b : Int) (ha : 1 ≤ a) (hb : 1 ≤ b) (hab : a + b ≤ 1000000) :
    shaInfinity h x (.fin (a + b)) =
      shaInfinity h (shaInfinity h x (.fin a)) (.fin b) := by
  have hna : normDepth (.fin a) = a.toNat := by
    simp only [normDepth]
    rw [if_neg (by omega), if_neg (by omega)]
  have hnb : normDepth (.fin b) = b.toNat := by
    simp only [normDepth]
    rw [if_neg (by omega), if_neg (by omega)]
  have hnab : normDepth (.fin (a + b)) = a.toNat + b.toNat := by
    simp only [normDepth]
    rw [if_neg (by omega), if_neg (by omega)]
    omega
  simp only [shaInfinity, hna, hnb, hnab]
  exact iterApply_add h a.toNat b.toNat x

/-- Witness for the amended C7 at `a = b = 1`. -/
theorem shaInfinity_depth_additive_witness :
    (1 : Int) ≤ 1 ∧ (1 : Int) ≤ 1 ∧ (1 : Int) + 1 ≤ 1000000 ∧
      shaInfinity testHash "q" (.fin (1 + 1)) =
        shaInfinity testHash (shaInfinity testHash "q" (.fin 1)) (.fin 1) :=
  ⟨by decide, by decide, by decide,
    shaInfinity_depth_additive testHash "q" 1 1 (by decide) (by decide) (by decide)⟩

/-! ### Claim C10: empty proofs accept exactly the root itself -/

/-- Claim C10: for every digest `h`, leaf string and root string,
`verifyMerkleProof(leaf, [], root)` returns `true` iff `leaf == root`: with an
empty proof list the fold is the identity and the function degenerates to a
string comparison, so any committed root vacuously verifies as its own leaf. -/
theorem verifyMerkleProof_nil_iff (h : String → String) (leaf root : String) :
    verifyMerkleProof h leaf [] root = true ↔ leaf = root := by
  simp [verifyMerkleProof]

/-! ### Claim C9: the concrete two-element chain -/

/-- Claim C9: for every digest `h`, `hashChain(["e1","e2"])` with an absent
previous digest starts from `h("genesis")` and produces exactly 2 links with
`links[0] = {item: "e1", itemHash: h("e1"), chainHash: h(h("genesis") ++ h("e1"))}`,
`links[1] = {item: "e2", itemHash: h("e2"), chainHash: h(links[0].chainHash ++ h("e2"))}`,
and `finalHash == links[1].chainHash`. -/
theorem hashChain_e1_e2 (h : String → String) :
    (hashChain h ["e1", "e2"] none).chain.length = 2 ∧
      (hashChain h ["e1", "e2"] none).chain.get? 0 =
        some ⟨"e1", h "e1", h (h "genesis" ++ h "e1")⟩ ∧
      (hashChain h ["e1", "e2"] none).chain.get? 1 =
        some ⟨"e2", h "e2", h (h (h "genesis" ++ h "e1") ++ h "e2")⟩ ∧
      (hashChain h ["e1", "e2"] none).finalHash =
        h (h (h "genesis" ++ h "e1") ++ h "e2") := by
  refine ⟨rfl, rfl, rfl, rfl⟩

end ShaInfinity

